import Mathlib

/-!
A verification development for `src/mlpack/core/util/sfinae_utility.hpp`:
mlpack's compile-time method-detection facility (SFINAE utilities).

The C++ source is pure compile-time type computation, so the embedding models
the type-level data and the detection algorithm as executable Lean functions:

* `Sig` represents a pointer-to-member-function type (cv-qualification, return
  type, parameter-type list); C++ types themselves are represented by codes
  (`Ty`).
* `MethodForm` represents a "method form" template
  `template<typename Class, typename... Ts> using MF = R (Class::*)(F1..Fm, Ts...)`
  — a fixed return type, fixed leading parameters, and a variadic tail.
* `Class` carries, for detection purposes, the class's member functions as
  (name, signature) pairs; `Class.overloads` is the overload set of a name.
* `MethodFormDetecter` embeds the eight explicit specializations (arity 0..7)
  of the detecter struct; the primary template is declared but never defined,
  which the embedding renders as `none` (an incomplete type).
* `WithNAdditionalArgs` embeds the SFINAE probe of the macro-generated helper
  struct: `decltype(MFD<C, MF, N>()(&C::METHOD))` compiles exactly when the
  address-of-member expression `&C::METHOD` resolves, against the deduced
  parameter `MF<C, T1..TN>`, to exactly one member of the overload set.
* `WithGreaterOrEqualNumberOfAdditionalArgs` embeds the bounded compile-time
  recursion over arities, and `probedArgCounts` instruments the same
  conditional structure to record which arities get probed (i.e. which
  `WithNAdditionalArgs<N>` instantiations are forced).
* `hasMemFuncValue` embeds the `HAS_MEM_FUNC` fixed-signature detector, and
  `instantiateHasMethodForm` embeds instantiation of the `HAS_METHOD_FORM`
  generated template, including the kinds of its template parameter list
  (`typename Class` first, `template<typename...> class MethodForm` second).
-/

namespace MlpackSfinae

/-- Codes for C++ types. The detection machinery only ever compares types for
identity, so an abstract code suffices. -/
abbrev Ty := Nat

def tyVoid : Ty := 0
def tyInt : Ty := 1
def tyDouble : Ty := 2

/-- The compile-time type of a member function: cv-qualification, return type
and parameter-type list. A pointer-to-member-function type
`R (C::*)(P1, ..., Pk) const?` is represented by this record. -/
structure Sig where
  isConst : Bool
  ret : Ty
  params : List Ty
deriving DecidableEq

/-- A method form:
`template<typename Class, typename... Ts> using MF = R (Class::*)(F1..Fm, Ts...)`
— fixed return type, fixed leading parameter types, and a variadic tail
(`sfinae_utility.hpp`, comment at lines 166-170). -/
structure MethodForm where
  isConst : Bool
  ret : Ty
  leadParams : List Ty
deriving DecidableEq

/-- `MF<Class, T1..TN>`: the shape instantiated with a concrete tail of
trailing argument types. -/
def MethodForm.apply (mf : MethodForm) (tail : List Ty) : Sig :=
  ⟨mf.isConst, mf.ret, mf.leadParams ++ tail⟩

/-- A C++ class, for detection purposes: its member functions, as
(name, signature) pairs. A well-formed C++ class never declares two members
with the same name and the same signature, so the overload set of any name is
duplicate-free; theorems assume that where it matters. -/
structure Class where
  methods : List (String × Sig)

/-- The overload set of the members of `C` named `name`. -/
def Class.overloads (C : Class) (name : String) : List Sig :=
  (C.methods.filter (fun p => p.1 == name)).map Prod.snd

/-- Template-argument deduction of the probe parameter type `MF<Class, T1..TN>`
against a candidate member signature `s`: deduction succeeds exactly when the
cv-qualification and return type agree, `s` has exactly `N` parameters beyond
the shape's fixed leading ones, and the leading parameters agree (the tail
`T1..TN` is then deduced from the trailing parameters of `s`). -/
def matchesAtArity (mf : MethodForm) (N : Nat) (s : Sig) : Bool :=
  decide (s.isConst = mf.isConst) && decide (s.ret = mf.ret) &&
  decide (s.params.length = mf.leadParams.length + N) &&
  decide (s.params.take mf.leadParams.length = mf.leadParams)

/-- `static const size_t MaxMFDAdditionalArgsCount = 7;`
(`sfinae_utility.hpp`, line 46). -/
def MaxMFDAdditionalArgsCount : Nat := 7

/-- `MethodFormDetecter<Class, MethodForm, AdditionalArgsCount>`
(`sfinae_utility.hpp`, lines 41-101): the primary template is declared but
never defined, and eight explicit specializations exist, for additional
argument counts 0 through 7. Each specialization declares an `operator()`
accepting one parameter of type `MethodForm<Class, T1..TN>` with `T1..TN`
deduced; the embedding returns the corresponding deduction predicate over
candidate member signatures. For any other count the type is incomplete,
rendered `none`. -/
def MethodFormDetecter (mf : MethodForm) : Nat → Option (Sig → Bool)
  | 0 => some (matchesAtArity mf 0)
  | 1 => some (matchesAtArity mf 1)
  | 2 => some (matchesAtArity mf 2)
  | 3 => some (matchesAtArity mf 3)
  | 4 => some (matchesAtArity mf 4)
  | 5 => some (matchesAtArity mf 5)
  | 6 => some (matchesAtArity mf 6)
  | 7 => some (matchesAtArity mf 7)
  | _ => none

/-- Resolution of the overloaded address-of-member expression `&C::METHOD`
against a probe parameter with deduced template arguments: per C++ overload
resolution from an overload set, it is well-formed exactly when exactly one
member of the overload set matches (zero matches and ambiguous multiple
matches are both deduction failures). -/
def resolvesUniquely (ov : List Sig) (p : Sig → Bool) : Bool :=
  ov.countP p == 1

/-- `WithNAdditionalArgs<N>` of the `HAS_METHOD_FORM`-generated struct
(`sfinae_utility.hpp`, lines 199-211): its `value` is true exactly when
`decltype(MFD<Class, MF, N>()(&Class::METHOD))` compiles, i.e. when the
detecter's `operator()` accepts `&Class::METHOD`; every substitution failure
(including an incomplete detecter type) is caught by the `chk(...)` fallback
and yields false. The probe depends on the class only through the overload
set `ov` of the probed method name. -/
def WithNAdditionalArgs (ov : List Sig) (mf : MethodForm) (N : Nat) : Bool :=
  match MethodFormDetecter mf N with
  | some p => resolvesUniquely ov p
  | none => false

/-- `WithGreaterOrEqualNumberOfAdditionalArgs<N>` of the
`HAS_METHOD_FORM`-generated struct (`sfinae_utility.hpp`, lines 213-224):
if `WithNAdditionalArgs<N>::value` holds the result is `std::true_type`;
otherwise, if `N < MaxMFDAdditionalArgsCount`, the search recurses at `N + 1`;
otherwise the result is `std::false_type`. -/
def WithGreaterOrEqualNumberOfAdditionalArgs (ov : List Sig) (mf : MethodForm)
    (N : Nat) : Bool :=
  if WithNAdditionalArgs ov mf N then true
  else if h : N < MaxMFDAdditionalArgsCount then
    WithGreaterOrEqualNumberOfAdditionalArgs ov mf (N + 1)
  else false
termination_by MaxMFDAdditionalArgsCount - N
decreasing_by simp [MaxMFDAdditionalArgsCount] at h ⊢; omega

/-- The arities actually probed by the search started at `N`: the conditional
structure of `WithGreaterOrEqualNumberOfAdditionalArgs<N>` forces the
instantiation `WithNAdditionalArgs<N>` always, and forces
`WithGreaterOrEqualNumberOfAdditionalArgs<N+1>` (hence further probes) only
when the probe at `N` failed and `N < MaxMFDAdditionalArgsCount`; on a match
the selected branch is `std::true_type` and nothing further is instantiated. -/
def probedArgCounts (ov : List Sig) (mf : MethodForm) (N : Nat) : List Nat :=
  if WithNAdditionalArgs ov mf N then [N]
  else if h : N < MaxMFDAdditionalArgsCount then
    N :: probedArgCounts ov mf (N + 1)
  else [N]
termination_by MaxMFDAdditionalArgsCount - N
decreasing_by simp [MaxMFDAdditionalArgsCount] at h ⊢; omega

/-- The `value` member of the `HAS_METHOD_FORM(METHOD, NAME)`-generated
template (`sfinae_utility.hpp`, line 226): the bounded search started at
count 0, on the overload set of `METHOD` in the given class. -/
def hasMethodFormValue (method : String) (C : Class) (mf : MethodForm) : Bool :=
  WithGreaterOrEqualNumberOfAdditionalArgs (C.overloads method) mf 0

/-- A template argument, with its kind: a type (class) argument, or a
template template argument (a method shape). -/
inductive TemplateArg where
  | classArg (C : Class)
  | shapeArg (mf : MethodForm)

/-- Instantiation of the `HAS_METHOD_FORM(METHOD, NAME)`-generated template at
an explicit template-argument list. Its parameter list
(`sfinae_utility.hpp`, lines 183-184) is
`template<typename Class, template<typename...> class MethodForm>`, so an
argument list is accepted — and a `value` member produced — exactly when it
consists of a type argument followed by a template (shape) argument; any
other argument list is a kind mismatch and the instantiation is ill-formed
(`none`). -/
def instantiateHasMethodForm (method : String) :
    List TemplateArg → Option Bool
  | [TemplateArg.classArg C, TemplateArg.shapeArg mf] =>
      some (hasMethodFormValue method C mf)
  | _ => none

/-- The `value` member of the `HAS_MEM_FUNC(FUNC, NAME)`-generated struct
(`sfinae_utility.hpp`, lines 142-151): `chk<T>(0)` prefers the overload whose
parameter `type_check<sig, &_1::FUNC> *` forces `&T::FUNC` to be a constant of
type exactly `sig`; that succeeds exactly when exactly one member named `FUNC`
has type exactly `sig`, and every substitution failure falls back to the
`no &chk(...)` overload, i.e. to false. -/
def hasMemFuncValue (C : Class) (func : String) (sig : Sig) : Bool :=
  resolvesUniquely (C.overloads func) (fun t => decide (t = sig))

/-- The well-formedness, as C++ overload resolution, of the probe call
described by the spec: a call of a probe function accepting exactly one
parameter of type `Shape<Class, T1..TN>` (with `T1..TN` deduced), with
argument `&Class::Method`. From an overload set, such a call is well-formed
exactly when exactly one member of the set is an instantiation of the shape
at a length-`N` tail. -/
def ProbeCallWellFormed (ov : List Sig) (mf : MethodForm) (N : Nat) : Prop :=
  ∃! s : Sig, s ∈ ov ∧ ∃ tail : List Ty, tail.length = N ∧ mf.apply tail = s

/-! ### Concrete example classes and shapes, used to instantiate theorems -/

/-- A shape with no fixed leading parameters:
`template<typename C, typename... Ts> using F = void (C::*)(Ts...)`. -/
def shapeP0 : MethodForm := ⟨false, tyVoid, []⟩

/-- A `TrainForm`-style shape with one fixed leading parameter:
`template<typename C, typename... Ts> using TrainForm = void (C::*)(double, Ts...)`. -/
def trainShape : MethodForm := ⟨false, tyVoid, [tyDouble]⟩

/-- A class declaring the two overloads `void f(int)` and `void f(int, int)`. -/
def classAB : Class :=
  ⟨[("f", ⟨false, tyVoid, [tyInt]⟩), ("f", ⟨false, tyVoid, [tyInt, tyInt]⟩)]⟩

/-- A class declaring only `void Train(double, int)`. -/
def classTrainOnly : Class := ⟨[("Train", ⟨false, tyVoid, [tyDouble, tyInt]⟩)]⟩

/-- A class declaring only `void f(int, ..., int)` with seven parameters. -/
def classArity7 : Class := ⟨[("f", ⟨false, tyVoid, List.replicate 7 tyInt⟩)]⟩

/-- A class declaring only `void f(int, ..., int)` with eight parameters. -/
def classArity8 : Class := ⟨[("f", ⟨false, tyVoid, List.replicate 8 tyInt⟩)]⟩

/-- A class declaring only the nullary `void f()`. -/
def classF0 : Class := ⟨[("f", ⟨false, tyVoid, []⟩)]⟩

/-! ### Basic lemmas about the embedded definitions -/

/-- For counts within the bound, the detecter is the explicit specialization. -/
theorem MethodFormDetecter_le {mf : MethodForm} {N : Nat} (h : N ≤ 7) :
    MethodFormDetecter mf N = some (matchesAtArity mf N) := by
  interval_cases N <;> rfl

/-- Beyond the bound there is no specialization and the primary template has
no definition: the type is incomplete. -/
theorem MethodFormDetecter_gt {mf : MethodForm} {N : Nat} (h : 7 < N) :
    MethodFormDetecter mf N = none := by
  obtain ⟨k, rfl⟩ : ∃ k, N = k + 8 := ⟨N - 8, by omega⟩
  rfl

theorem WithNAdditionalArgs_le {ov : List Sig} {mf : MethodForm} {N : Nat}
    (h : N ≤ 7) :
    WithNAdditionalArgs ov mf N = resolvesUniquely ov (matchesAtArity mf N) := by
  rw [WithNAdditionalArgs, MethodFormDetecter_le h]

theorem WithNAdditionalArgs_gt {ov : List Sig} {mf : MethodForm} {N : Nat}
    (h : 7 < N) : WithNAdditionalArgs ov mf N = false := by
  rw [WithNAdditionalArgs, MethodFormDetecter_gt h]

/-- Deduction of the shape against a candidate signature succeeds exactly when
the candidate is the shape instantiated at some length-`N` tail. -/
theorem matchesAtArity_iff (mf : MethodForm) (N : Nat) (s : Sig) :
    matchesAtArity mf N s = true ↔
      ∃ tail : List Ty, tail.length = N ∧ mf.apply tail = s := by
  simp only [matchesAtArity, Bool.and_eq_true, decide_eq_true_eq]
  constructor
  · rintro ⟨⟨⟨hc, hr⟩, hlen⟩, htake⟩
    refine ⟨s.params.drop mf.leadParams.length, by simp [hlen], ?_⟩
    cases s with
    | mk c r ps =>
      simp only [MethodForm.apply, Sig.mk.injEq]
      refine ⟨hc.symm, hr.symm, ?_⟩
      calc mf.leadParams ++ List.drop mf.leadParams.length ps
          = List.take mf.leadParams.length ps ++ List.drop mf.leadParams.length ps := by
            rw [htake]
        _ = ps := List.take_append_drop _ _
  · rintro ⟨tail, hlen, rfl⟩
    simp [MethodForm.apply, hlen, List.take_left]

/-- Unfolding equation for the bounded search. -/
theorem WGE_unfold (ov : List Sig) (mf : MethodForm) (N : Nat) :
    WithGreaterOrEqualNumberOfAdditionalArgs ov mf N =
      if WithNAdditionalArgs ov mf N then true
      else if N < MaxMFDAdditionalArgsCount then
        WithGreaterOrEqualNumberOfAdditionalArgs ov mf (N + 1)
      else false := by
  conv_lhs => unfold WithGreaterOrEqualNumberOfAdditionalArgs
  simp only [dite_eq_ite]

/-- Unfolding equation for the probe trace. -/
theorem probedArgCounts_unfold (ov : List Sig) (mf : MethodForm) (N : Nat) :
    probedArgCounts ov mf N =
      if WithNAdditionalArgs ov mf N then [N]
      else if N < MaxMFDAdditionalArgsCount then
        N :: probedArgCounts ov mf (N + 1)
      else [N] := by
  conv_lhs => unfold probedArgCounts
  simp only [dite_eq_ite]

theorem WGE_of_probe_true {ov : List Sig} {mf : MethodForm} {N : Nat}
    (h : WithNAdditionalArgs ov mf N = true) :
    WithGreaterOrEqualNumberOfAdditionalArgs ov mf N = true := by
  rw [WGE_unfold, h]
  rfl

theorem WGE_step {ov : List Sig} {mf : MethodForm} {N : Nat}
    (h : WithNAdditionalArgs ov mf N = false) (hlt : N < 7) :
    WithGreaterOrEqualNumberOfAdditionalArgs ov mf N =
      WithGreaterOrEqualNumberOfAdditionalArgs ov mf (N + 1) := by
  rw [WGE_unfold, h]
  simp [MaxMFDAdditionalArgsCount, hlt]

theorem WGE_stop {ov : List Sig} {mf : MethodForm} {N : Nat}
    (h : WithNAdditionalArgs ov mf N = false) (hge : ¬ N < 7) :
    WithGreaterOrEqualNumberOfAdditionalArgs ov mf N = false := by
  rw [WGE_unfold, h]
  simp [MaxMFDAdditionalArgsCount, hge]

theorem probed_of_probe_true {ov : List Sig} {mf : MethodForm} {N : Nat}
    (h : WithNAdditionalArgs ov mf N = true) :
    probedArgCounts ov mf N = [N] := by
  rw [probedArgCounts_unfold, h]
  rfl

theorem probed_step {ov : List Sig} {mf : MethodForm} {N : Nat}
    (h : WithNAdditionalArgs ov mf N = false) (hlt : N < 7) :
    probedArgCounts ov mf N = N :: probedArgCounts ov mf (N + 1) := by
  rw [probedArgCounts_unfold, h]
  simp [MaxMFDAdditionalArgsCount, hlt]

theorem probed_stop {ov : List Sig} {mf : MethodForm} {N : Nat}
    (h : WithNAdditionalArgs ov mf N = false) (hge : ¬ N < 7) :
    probedArgCounts ov mf N = [N] := by
  rw [probedArgCounts_unfold, h]
  simp [MaxMFDAdditionalArgsCount, hge]

/-- In a duplicate-free list, the match count is one exactly when there is a
unique matching element. -/
theorem countP_eq_one_iff {α : Type} {l : List α} {p : α → Bool}
    (hl : l.Nodup) :
    l.countP p = 1 ↔
      ∃ a, (a ∈ l ∧ p a = true) ∧ ∀ b, b ∈ l → p b = true → b = a := by
  induction l with
  | nil => simp
  | cons x xs ih =>
    rcases List.nodup_cons.mp hl with ⟨hx, hxs⟩
    by_cases hpx : p x = true
    · simp only [List.countP_cons, hpx, if_true]
      constructor
      · intro h
        have h0 : ∀ b ∈ xs, ¬ p b = true := by
          rw [← List.countP_eq_zero]
          omega
        refine ⟨x, ⟨List.mem_cons_self x xs, hpx⟩, ?_⟩
        intro b hb hpb
        rcases List.mem_cons.mp hb with rfl | hbxs
        · rfl
        · exact absurd hpb (h0 b hbxs)
      · rintro ⟨a, ⟨_, _⟩, huniq⟩
        have hax : x = a := huniq x (List.mem_cons_self x xs) hpx
        subst hax
        have h0 : xs.countP p = 0 := by
          rw [List.countP_eq_zero]
          intro b hb hpb
          exact hx (huniq b (List.mem_cons_of_mem x hb) hpb ▸ hb)
        omega
    · have hc : (x :: xs).countP p = xs.countP p := by
        simp [List.countP_cons, hpx]
      rw [hc, ih hxs]
      constructor
      · rintro ⟨a, ⟨ha, hpa⟩, hu⟩
        refine ⟨a, ⟨List.mem_cons_of_mem _ ha, hpa⟩, ?_⟩
        intro b hb hpb
        rcases List.mem_cons.mp hb with rfl | hbxs
        · exact absurd hpb hpx
        · exact hu b hbxs hpb
      · rintro ⟨a, ⟨ha, hpa⟩, hu⟩
        rcases List.mem_cons.mp ha with rfl | haxs
        · exact absurd hpa hpx
        · exact ⟨a, ⟨haxs, hpa⟩, fun b hb hpb => hu b (List.mem_cons_of_mem _ hb) hpb⟩

/-- Membership in an overload set, in terms of the class's member list. -/
theorem mem_overloads {C : Class} {name : String} {s : Sig} :
    s ∈ C.overloads name ↔ (name, s) ∈ C.methods := by
  simp only [Class.overloads, List.mem_map, List.mem_filter]
  constructor
  · rintro ⟨⟨n, t⟩, ⟨hmem, hn⟩, rfl⟩
    have hn' : n = name := by simpa using hn
    subst hn'
    exact hmem
  · intro h
    exact ⟨(name, s), ⟨h, by simp⟩, rfl⟩

/-- Characterization of the bounded search: starting at any count within the
bound, it succeeds exactly when some count from there up to the bound has a
matching probe. (Downward induction on the remaining budget.) -/
theorem WGE_true_iff_aux (ov : List Sig) (mf : MethodForm) :
    ∀ d N, N + d = 7 →
      (WithGreaterOrEqualNumberOfAdditionalArgs ov mf N = true ↔
        ∃ k, N ≤ k ∧ k ≤ 7 ∧ WithNAdditionalArgs ov mf k = true) := by
  intro d
  induction d with
  | zero =>
    intro N hN
    have h7 : N = 7 := by omega
    subst h7
    rcases Bool.eq_false_or_eq_true (WithNAdditionalArgs ov mf 7) with h | h
    · rw [WGE_of_probe_true h]
      constructor
      · intro _
        exact ⟨7, le_refl 7, le_refl 7, h⟩
      · intro _
        rfl
    · rw [WGE_stop h (by omega)]
      constructor
      · intro hh
        exact absurd hh (by simp)
      · rintro ⟨k, hk1, hk2, hk3⟩
        have hk : k = 7 := by omega
        subst hk
        rw [h] at hk3
        exact absurd hk3 (by simp)
  | succ d ih =>
    intro N hN
    have hlt : N < 7 := by omega
    rcases Bool.eq_false_or_eq_true (WithNAdditionalArgs ov mf N) with h | h
    · rw [WGE_of_probe_true h]
      constructor
      · intro _
        exact ⟨N, le_refl N, by omega, h⟩
      · intro _
        rfl
    · rw [WGE_step h hlt, ih (N + 1) (by omega)]
      constructor
      · rintro ⟨k, hk1, hk2, hk3⟩
        exact ⟨k, by omega, hk2, hk3⟩
      · rintro ⟨k, hk1, hk2, hk3⟩
        rcases Nat.eq_or_lt_of_le hk1 with rfl | hk1'
        · rw [h] at hk3
          exact absurd hk3 (by simp)
        · exact ⟨k, by omega, hk2, hk3⟩

theorem WGE_true_iff {ov : List Sig} {mf : MethodForm} {N : Nat} (hN : N ≤ 7) :
    WithGreaterOrEqualNumberOfAdditionalArgs ov mf N = true ↔
      ∃ k, N ≤ k ∧ k ≤ 7 ∧ WithNAdditionalArgs ov mf k = true :=
  WGE_true_iff_aux ov mf (7 - N) N (by omega)

/-- If every in-bound probe fails, the search fails from every starting
count. -/
theorem WGE_false_of_all {ov : List Sig} {mf : MethodForm}
    (h : ∀ k, k ≤ 7 → WithNAdditionalArgs ov mf k = false) :
    ∀ N, WithGreaterOrEqualNumberOfAdditionalArgs ov mf N = false := by
  intro N
  by_cases hN : N ≤ 7
  · rcases Bool.eq_false_or_eq_true
      (WithGreaterOrEqualNumberOfAdditionalArgs ov mf N) with hh | hh
    · rw [WGE_true_iff hN] at hh
      rcases hh with ⟨k, _, hk2, hk3⟩
      rw [h k hk2] at hk3
      exact absurd hk3 (by simp)
    · exact hh
  · exact WGE_stop (WithNAdditionalArgs_gt (by omega)) (by omega)

/-- The probe trace of a search that first matches at `k`: every count from
the start up to and including `k`, in increasing order, and nothing beyond. -/
theorem probed_first_match_aux (ov : List Sig) (mf : MethodForm) :
    ∀ d N k, N + d = 7 → N ≤ k → k ≤ 7 →
      WithNAdditionalArgs ov mf k = true →
      (∀ j, N ≤ j → j < k → WithNAdditionalArgs ov mf j = false) →
      probedArgCounts ov mf N = List.range' N (k + 1 - N) := by
  intro d
  induction d with
  | zero =>
    intro N k hN hNk hk7 hmatch _
    have hN7 : N = 7 := by omega
    have hk : k = 7 := by omega
    subst hN7
    subst hk
    rw [probed_of_probe_true hmatch]
    rfl
  | succ d ih =>
    intro N k hN hNk hk7 hmatch hbefore
    rcases Nat.eq_or_lt_of_le hNk with rfl | hlt
    · rw [probed_of_probe_true hmatch]
      have h1 : N + 1 - N = 1 := by omega
      rw [h1]
      rfl
    · have hfail : WithNAdditionalArgs ov mf N = false :=
        hbefore N (le_refl N) hlt
      have hN7 : N < 7 := by omega
      rw [probed_step hfail hN7,
        ih (N + 1) k (by omega) (by omega) hk7 hmatch
          (fun j hj1 hj2 => hbefore j (by omega) hj2)]
      have h1 : k + 1 - (N + 1) = k - N := by omega
      have h2 : k + 1 - N = (k - N) + 1 := by omega
      rw [h1, h2]
      rfl

/-- Every probed count stays within the bound when the search starts within
the bound. -/
theorem probed_le_aux (ov : List Sig) (mf : MethodForm) :
    ∀ d N, N + d = 7 → ∀ k, k ∈ probedArgCounts ov mf N → k ≤ 7 := by
  intro d
  induction d with
  | zero =>
    intro N hN k hk
    have h7 : N = 7 := by omega
    subst h7
    rcases Bool.eq_false_or_eq_true (WithNAdditionalArgs ov mf 7) with h | h
    · rw [probed_of_probe_true h] at hk
      simp at hk
      omega
    · rw [probed_stop h (by omega)] at hk
      simp at hk
      omega
  | succ d ih =>
    intro N hN k hk
    rcases Bool.eq_false_or_eq_true (WithNAdditionalArgs ov mf N) with h | h
    · rw [probed_of_probe_true h] at hk
      simp at hk
      omega
    · rw [probed_step h (by omega)] at hk
      rcases List.mem_cons.mp hk with rfl | hk'
      · omega
      · exact ih (N + 1) (by omega) k hk'

/-! ### The claims -/

/-- C1: for every class and method shape, the generated detector's `value` is
true iff some additional-argument count `N ∈ [0, 7]` has a matching
fixed-arity probe; and the search probes counts in increasing order starting
at 0 and stops at the first matching count: when the first match is at `k`,
the probed counts are exactly `0, 1, ..., k` and nothing beyond. -/
theorem claim_C1 (C : Class) (method : String) (mf : MethodForm) :
    (hasMethodFormValue method C mf = true ↔
      ∃ N, N ≤ 7 ∧ WithNAdditionalArgs (C.overloads method) mf N = true)
    ∧ (∀ k, k ≤ 7 → WithNAdditionalArgs (C.overloads method) mf k = true →
        (∀ j, j < k → WithNAdditionalArgs (C.overloads method) mf j = false) →
        probedArgCounts (C.overloads method) mf 0 = List.range (k + 1)) := by
  constructor
  · rw [hasMethodFormValue, WGE_true_iff (by omega)]
    constructor
    · rintro ⟨k, _, hk2, hk3⟩
      exact ⟨k, hk2, hk3⟩
    · rintro ⟨k, hk2, hk3⟩
      exact ⟨k, by omega, hk2, hk3⟩
  · intro k hk7 hmatch hbefore
    rw [probed_first_match_aux (C.overloads method) mf 7 0 k (by omega)
      (by omega) hk7 hmatch (fun j _ hj => hbefore j hj)]
    rw [List.range_eq_range']
    simp

/-- Witness for C1 at the two-overload example class: the first match is at
count 1, so counts 0 and 1 are probed. -/
theorem claim_C1_witness :
    (hasMethodFormValue "f" classAB shapeP0 = true ↔
      ∃ N, N ≤ 7 ∧ WithNAdditionalArgs (classAB.overloads "f") shapeP0 N = true)
    ∧ probedArgCounts (classAB.overloads "f") shapeP0 0 = List.range 2 :=
  ⟨(claim_C1 classAB "f" shapeP0).1,
   (claim_C1 classAB "f" shapeP0).2 1 (by decide) (by decide)
     (by intro j hj; interval_cases j; decide)⟩

/-- C2: for every class, shape, and fixed count `N ∈ [0, 7]`, the fixed-arity
probe's `value` is true iff overload resolution of a probe function taking one
parameter of type `MF<C, T1..TN>` (with the tail deduced), called with
`&C::Method`, is well-formed — i.e. exactly one member of the overload set is
the shape instantiated at a length-`N` tail. A missing method, wrong arity,
or wrong qualifiers make that resolution fail, hence the result false. -/
theorem claim_C2 (C : Class) (method : String) (mf : MethodForm) (N : Nat)
    (hN : N ≤ 7) (hnd : (C.overloads method).Nodup) :
    WithNAdditionalArgs (C.overloads method) mf N = true ↔
      ProbeCallWellFormed (C.overloads method) mf N := by
  have h1 : resolvesUniquely (C.overloads method) (matchesAtArity mf N) = true ↔
      (C.overloads method).countP (matchesAtArity mf N) = 1 := by
    simp [resolvesUniquely]
  rw [WithNAdditionalArgs_le hN, h1, countP_eq_one_iff hnd]
  constructor
  · rintro ⟨a, ⟨ha, hpa⟩, hu⟩
    refine ⟨a, ⟨ha, (matchesAtArity_iff mf N a).mp hpa⟩, ?_⟩
    rintro b ⟨hb, htail⟩
    exact hu b hb ((matchesAtArity_iff mf N b).mpr htail)
  · rintro ⟨a, ⟨ha, htail⟩, hu⟩
    refine ⟨a, ⟨ha, (matchesAtArity_iff mf N a).mpr htail⟩, ?_⟩
    intro b hb hpb
    exact hu b ⟨hb, (matchesAtArity_iff mf N b).mp hpb⟩

/-- Witness for C2 at the two-overload example class and count 1. -/
theorem claim_C2_witness :
    (1 : Nat) ≤ 7 ∧ (classAB.overloads "f").Nodup ∧
    (WithNAdditionalArgs (classAB.overloads "f") shapeP0 1 = true ↔
      ProbeCallWellFormed (classAB.overloads "f") shapeP0 1) :=
  ⟨by decide, by decide, claim_C2 classAB "f" shapeP0 1 (by decide) (by decide)⟩

/-- C3: substitution failures are soft: for a class with no member of the
probed name at all, every fixed-arity probe is false, the bounded search from
every starting count is false, and the detector instantiation itself remains
well-formed — it produces the value `false` rather than failing. -/
theorem claim_C3 (C : Class) (method : String) (mf : MethodForm)
    (h : C.overloads method = []) :
    (∀ N, WithNAdditionalArgs (C.overloads method) mf N = false)
    ∧ (∀ N,
        WithGreaterOrEqualNumberOfAdditionalArgs (C.overloads method) mf N = false)
    ∧ instantiateHasMethodForm method
        [TemplateArg.classArg C, TemplateArg.shapeArg mf] = some false := by
  have hN : ∀ N, WithNAdditionalArgs (C.overloads method) mf N = false := by
    intro N
    by_cases hle : N ≤ 7
    · rw [WithNAdditionalArgs_le hle, h]
      rfl
    · exact WithNAdditionalArgs_gt (by omega)
  refine ⟨hN, WGE_false_of_all (fun k _ => hN k), ?_⟩
  have hv : hasMethodFormValue method C mf = false :=
    WGE_false_of_all (fun k _ => hN k) 0
  simp [instantiateHasMethodForm, hv]

/-- Witness for C3: the example class has no member named `g`. -/
theorem claim_C3_witness :
    classAB.overloads "g" = [] ∧
    WithGreaterOrEqualNumberOfAdditionalArgs (classAB.overloads "g") shapeP0 0 =
      false :=
  ⟨by decide, (claim_C3 classAB "g" shapeP0 (by decide)).2.1 0⟩

/-- C4: the bounded search terminates: it recurses from `N` to `N + 1` only
while `N < 7`; at `N = 7` an unmatched probe yields the definite result false
with no further recursion; and no probed count ever exceeds the bound. -/
theorem claim_C4 (C : Class) (method : String) (mf : MethodForm) :
    (∀ N, N < 7 → WithNAdditionalArgs (C.overloads method) mf N = false →
      WithGreaterOrEqualNumberOfAdditionalArgs (C.overloads method) mf N =
        WithGreaterOrEqualNumberOfAdditionalArgs (C.overloads method) mf (N + 1))
    ∧ (WithNAdditionalArgs (C.overloads method) mf 7 = false →
        WithGreaterOrEqualNumberOfAdditionalArgs (C.overloads method) mf 7 = false)
    ∧ (∀ k, k ∈ probedArgCounts (C.overloads method) mf 0 → k ≤ 7) :=
  ⟨fun N hlt h => WGE_step h hlt,
   fun h => WGE_stop h (by omega),
   fun k hk => probed_le_aux (C.overloads method) mf 7 0 (by omega) k hk⟩

/-- Witness for C4 at the two-overload example class. -/
theorem claim_C4_witness :
    (WithGreaterOrEqualNumberOfAdditionalArgs (classAB.overloads "f") shapeP0 0 =
      WithGreaterOrEqualNumberOfAdditionalArgs (classAB.overloads "f") shapeP0 1)
    ∧ (WithGreaterOrEqualNumberOfAdditionalArgs (classAB.overloads "f") shapeP0 7 =
        false)
    ∧ (0 : Nat) ≤ 7 := by
  refine ⟨(claim_C4 classAB "f" shapeP0).1 0 (by decide) (by decide),
    (claim_C4 classAB "f" shapeP0).2.1 (by decide), ?_⟩
  have h1 : probedArgCounts (classAB.overloads "f") shapeP0 0 = [0, 1] := by
    rw [probed_step (by decide) (by decide), probed_of_probe_true (by decide)]
  exact (claim_C4 classAB "f" shapeP0).2.2 0 (by rw [h1]; simp)

/-- C5: the bound is exactly 7, inclusive: a probe matching at arity 7 (and
nowhere below) still makes the search succeed, while a class whose only
members would need arity 8 makes every in-bound probe fail and the search
report false. -/
theorem claim_C5 (C : Class) (method : String) (mf : MethodForm) :
    ((∀ N, N < 7 → WithNAdditionalArgs (C.overloads method) mf N = false) →
      WithNAdditionalArgs (C.overloads method) mf 7 = true →
      hasMethodFormValue method C mf = true)
    ∧ ((∀ s, s ∈ C.overloads method →
          s.params.length = mf.leadParams.length + 8) →
        hasMethodFormValue method C mf = false) := by
  constructor
  · intro _ h7
    rw [hasMethodFormValue, WGE_true_iff (by omega)]
    exact ⟨7, by omega, le_refl 7, h7⟩
  · intro hall
    have hN : ∀ k, k ≤ 7 → WithNAdditionalArgs (C.overloads method) mf k = false := by
      intro k hk
      rw [WithNAdditionalArgs_le hk]
      have hc : (C.overloads method).countP (matchesAtArity mf k) = 0 := by
        rw [List.countP_eq_zero]
        intro s hs
        have hlen := hall s hs
        simp only [matchesAtArity, Bool.and_eq_true, decide_eq_true_eq]
        rintro ⟨⟨⟨_, _⟩, hlen'⟩, _⟩
        omega
      simp [resolvesUniquely, hc]
    exact WGE_false_of_all hN 0

/-- Witness for C5: a seven-parameter method is found; an eight-parameter
method is not. -/
theorem claim_C5_witness :
    hasMethodFormValue "f" classArity7 shapeP0 = true ∧
    hasMethodFormValue "f" classArity8 shapeP0 = false :=
  ⟨(claim_C5 classArity7 "f" shapeP0).1 (by decide) (by decide),
   (claim_C5 classArity8 "f" shapeP0).2 (by decide)⟩

/-- C6: the `HAS_MEM_FUNC(FUNC, NAME)` detector's `value` is true exactly when
the class has a member named `FUNC` whose type is exactly the queried
signature; in particular a same-name member with any different signature
(different return type or parameter count) does not satisfy it. -/
theorem claim_C6 (C : Class) (func : String) (sig : Sig)
    (hnd : (C.overloads func).Nodup) :
    hasMemFuncValue C func sig = true ↔ (func, sig) ∈ C.methods := by
  have h1 : hasMemFuncValue C func sig = true ↔
      (C.overloads func).countP (fun t => decide (t = sig)) = 1 := by
    simp [hasMemFuncValue, resolvesUniquely]
  rw [h1, countP_eq_one_iff hnd]
  constructor
  · rintro ⟨a, ⟨ha, hpa⟩, _⟩
    have haeq : a = sig := by simpa using hpa
    subst haeq
    exact mem_overloads.mp ha
  · intro h
    refine ⟨sig, ⟨mem_overloads.mpr h, by simp⟩, ?_⟩
    intro b hb hpb
    simpa using hpb

/-- Witness for C6 at the single-method example class and its exact
signature. -/
theorem claim_C6_witness :
    hasMemFuncValue classTrainOnly "Train" ⟨false, tyVoid, [tyDouble, tyInt]⟩ =
      true ↔
    ("Train", (⟨false, tyVoid, [tyDouble, tyInt]⟩ : Sig)) ∈
      classTrainOnly.methods :=
  claim_C6 classTrainOnly "Train" ⟨false, tyVoid, [tyDouble, tyInt]⟩ (by decide)

/-- C7 counterexample: instantiating the generated detector with the method
shape as the first template argument and the class as the second — the
`DetectorName<SomeShape, SomeClass>` order the claim prescribes — is a
template-argument kind mismatch against the generated parameter list
`template<typename Class, template<typename...> class MethodForm>`
(`sfinae_utility.hpp`, lines 183-184), so the instantiation is ill-formed and
produces no `value`. -/
theorem claim_C7_counterexample :
    instantiateHasMethodForm "Train"
      [TemplateArg.shapeArg trainShape, TemplateArg.classArg classTrainOnly] =
      none := rfl

/-- C7 amended: the detector generated by `HAS_METHOD_FORM` is queried with
the class as its first template argument and the method shape as its second —
client code writes `DetectorName<SomeClass, SomeShape>::value` — and the
`value` so obtained is the bounded search's result. -/
theorem claim_C7 (C : Class) (method : String) (mf : MethodForm) :
    instantiateHasMethodForm method
      [TemplateArg.classArg C, TemplateArg.shapeArg mf] =
      some (hasMethodFormValue method C mf) := rfl

/-- C8: for the class declaring both `f(int)` and `f(int, int)` and a shape
covering both arities, the search reports true; the probe at arity 1 matches
uniquely (no ambiguity arises), and the search probes exactly arities 0 and 1
— the first match is at arity 1 and the search stops there. -/
theorem claim_C8 :
    hasMethodFormValue "f" classAB shapeP0 = true
    ∧ WithNAdditionalArgs (classAB.overloads "f") shapeP0 1 = true
    ∧ probedArgCounts (classAB.overloads "f") shapeP0 0 = [0, 1] := by
  refine ⟨?_, by decide, ?_⟩
  · rw [hasMethodFormValue, WGE_step (by decide) (by decide)]
    exact WGE_of_probe_true (by decide)
  · rw [probed_step (by decide) (by decide), probed_of_probe_true (by decide)]

/-- C9: two detectors generated for two different method names do not
interfere: for a class implementing (matching) only the first method, the
first detector reports true, the second reports false, and each detector's
result depends only on the overload set of its own method name — replacing
the class by any class with the same overload set for that name leaves the
result unchanged. -/
theorem claim_C9 (C : Class) (m1 m2 : String) (mf1 mf2 : MethodForm)
    (himpl : ∃ k, k ≤ 7 ∧ WithNAdditionalArgs (C.overloads m1) mf1 k = true)
    (hnone : C.overloads m2 = []) :
    hasMethodFormValue m1 C mf1 = true
    ∧ hasMethodFormValue m2 C mf2 = false
    ∧ (∀ C' : Class, C'.overloads m1 = C.overloads m1 →
        hasMethodFormValue m1 C' mf1 = hasMethodFormValue m1 C mf1) := by
  refine ⟨?_, ?_, ?_⟩
  · rw [hasMethodFormValue, WGE_true_iff (by omega)]
    rcases himpl with ⟨k, hk1, hk2⟩
    exact ⟨k, by omega, hk1, hk2⟩
  · have hN : ∀ k, k ≤ 7 → WithNAdditionalArgs (C.overloads m2) mf2 k = false := by
      intro k hk
      rw [WithNAdditionalArgs_le hk, hnone]
      rfl
    exact WGE_false_of_all hN 0
  · intro C' hC'
    simp only [hasMethodFormValue, hC']

/-- Witness for C9: the example class implements `Train` (matching the train
shape at count 1) and no `Classify`. -/
theorem claim_C9_witness :
    hasMethodFormValue "Train" classTrainOnly trainShape = true
    ∧ hasMethodFormValue "Classify" classTrainOnly trainShape = false :=
  ⟨(claim_C9 classTrainOnly "Train" "Classify" trainShape trainShape
      ⟨1, by decide, by decide⟩ (by decide)).1,
   (claim_C9 classTrainOnly "Train" "Classify" trainShape trainShape
      ⟨1, by decide, by decide⟩ (by decide)).2.1⟩

/-- C10: the fixed-arity detecter is defined exactly for counts 0 through 7:
beyond the bound only the declared-but-undefined primary template remains, so
the type is incomplete (`none`) — a hard error at any direct use, not a
detector reporting false — and it is the bounded search, which never probes a
count beyond 7, that guards the bound. -/
theorem claim_C10 (mf : MethodForm) :
    (∀ N, MethodFormDetecter mf N = none ↔ 7 < N)
    ∧ (∀ (C : Class) (method : String) (k : Nat),
        k ∈ probedArgCounts (C.overloads method) mf 0 → k ≤ 7) := by
  constructor
  · intro N
    constructor
    · intro h
      by_contra hle
      rw [MethodFormDetecter_le (by omega)] at h
      exact Option.noConfusion h
    · intro h
      exact MethodFormDetecter_gt h
  · intro C method k hk
    exact probed_le_aux (C.overloads method) mf 7 0 (by omega) k hk

/-- Witness for C10: at count 8 the detecter is an incomplete type, and the
search on the nullary-method example class probes only count 0. -/
theorem claim_C10_witness :
    MethodFormDetecter shapeP0 8 = none ∧ (0 : Nat) ≤ 7 := by
  refine ⟨((claim_C10 shapeP0).1 8).mpr (by omega), ?_⟩
  have h1 : probedArgCounts (classF0.overloads "f") shapeP0 0 = [0] :=
    probed_of_probe_true (by decide)
  exact (claim_C10 shapeP0).2 classF0 "f" 0 (by rw [h1]; simp)

end MlpackSfinae

